import Mathlib

/-!
Verification of the `mime-parse` media-type parser (`src/mime-parse/src/lib.rs`).

Strings are modelled as lists of byte values (`List Nat`); the parser walks an
enumerated stream of `(index, byte)` pairs just as the Rust code walks
`s.bytes().enumerate()`.  Each definition below mirrors one item of the source:
the `TOKEN_MAP` table, `is_token`, `is_restricted_quoted_char`, the `parse`
state machine with its `toplevel` / sublevel loops, `params_from_str` with its
`'name` / `'value` / `'ws` loops, `lower_ascii_with_params`, the `Mime`
accessors, the parameter iterator (materialised as the list of pairs it
yields), and the `PartialEq` / `Ord` implementations.
-/

namespace MimeParse

/-- Bytes of a string literal, for readable concrete statements. -/
def strBytes (s : String) : List Nat :=
  s.data.map Char.toNat

/-- Enumerate a byte list starting at index `n`, like `bytes().enumerate()`
offset to position `n`. -/
def enumF : Nat → List Nat → List (Nat × Nat)
  | _, [] => []
  | n, c :: rest => (n, c) :: enumF (n + 1) rest

/-- The 256-entry `TOKEN_MAP` table from the source, row by row. -/
def TOKEN_MAP : List Bool := [
  false, false, false, false, false, false, false, false,
  false, false, false, false, false, false, false, false,
  false, false, false, false, false, false, false, false,
  false, false, false, false, false, false, false, false,
  false, true,  false, true,  true,  true,  true,  true,
  false, false, false, true,  false, true,  true,  false,
  true,  true,  true,  true,  true,  true,  true,  true,
  true,  true,  false, false, false, false, false, false,
  false, true,  true,  true,  true,  true,  true,  true,
  true,  true,  true,  true,  true,  true,  true,  true,
  true,  true,  true,  true,  true,  true,  true,  true,
  true,  true,  true,  false, false, false, true,  true,
  true,  true,  true,  true,  true,  true,  true,  true,
  true,  true,  true,  true,  true,  true,  true,  true,
  true,  true,  true,  true,  true,  true,  true,  true,
  true,  true,  true,  false, true,  false, true,  false,
  false, false, false, false, false, false, false, false,
  false, false, false, false, false, false, false, false,
  false, false, false, false, false, false, false, false,
  false, false, false, false, false, false, false, false,
  false, false, false, false, false, false, false, false,
  false, false, false, false, false, false, false, false,
  false, false, false, false, false, false, false, false,
  false, false, false, false, false, false, false, false,
  false, false, false, false, false, false, false, false,
  false, false, false, false, false, false, false, false,
  false, false, false, false, false, false, false, false,
  false, false, false, false, false, false, false, false,
  false, false, false, false, false, false, false, false,
  false, false, false, false, false, false, false, false,
  false, false, false, false, false, false, false, false,
  false, false, false, false, false, false, false, false]

def is_token (c : Nat) : Bool :=
  TOKEN_MAP.getD c false

def is_restricted_quoted_char (c : Nat) : Bool :=
  c == 9 || (c > 31 && c != 127)

/-- `Source`: backing text, either a static atom or an owned string. -/
inductive Source
  | atom (s : List Nat)
  | dynamic (s : List Nat)
deriving DecidableEq

def Source.asRef : Source → List Nat
  | .atom s => s
  | .dynamic s => s

/-- `Indexed(start, end)`: a half-open byte span into the source. -/
abbrev Indexed := Nat × Nat

abbrev IndexedPair := Indexed × Indexed

/-- `ParamSource`: the tagged parameter-storage model. -/
inductive ParamSource
  | none
  | utf8 (i : Nat)
  | one (i : Nat) (a : IndexedPair)
  | two (i : Nat) (a b : IndexedPair)
  | three (i : Nat) (a b c : IndexedPair)
  | custom (i : Nat) (ps : List IndexedPair)
deriving DecidableEq

inductive ParseError
  | missingSlash
  | missingEqual
  | missingQuote
  | invalidToken (pos : Nat) (byte : Nat)
  | invalidRange
deriving DecidableEq

inductive CanRange
  | yes
  | no
deriving DecidableEq

structure Mime where
  source : Source
  slash : Nat
  plus : Option Nat
  params : ParamSource
deriving DecidableEq

/-- `&s[a..b]`: slice of a byte list. -/
def slice (l : List Nat) (a b : Nat) : List Nat :=
  (l.take b).drop a

def toLowerByte (c : Nat) : Nat :=
  if 65 ≤ c ∧ c ≤ 90 then c + 32 else c

/-- `eq_ignore_ascii_case` on byte lists. -/
def eqIgnoreAsciiCase (a b : List Nat) : Bool :=
  a.length == b.length &&
    (a.zip b).all (fun p => toLowerByte p.1 == toLowerByte p.2)

def charsetBytes : List Nat := strBytes "charset"

def utf8Bytes : List Nat := strBytes "utf-8"

/-- `make_ascii_lowercase` applied to the index range `[a, b)`. -/
def mapRange (a b : Nat) (l : List Nat) : List Nat :=
  (enumF 0 l).map (fun p => if a ≤ p.1 ∧ p.1 < b then toLowerByte p.2 else p.2)

/-- `lower_ascii_with_params`: lowercase the text before the semicolon and all
parameter names; lowercase a value exactly when its (already lowercased) name
is `charset`. -/
def lower_ascii_with_params (s : List Nat) (semi : Nat) (ps : List IndexedPair) :
    List Nat :=
  ps.foldl
    (fun owned p =>
      let owned := mapRange p.1.1 p.1.2 owned
      if slice owned p.1.1 p.1.2 = charsetBytes then mapRange p.2.1 p.2.2 owned
      else owned)
    (mapRange 0 semi s)

-- ===== parser =====

/-- Toplevel-type loop: scan token bytes until the `/`; returns the slash
position and the rest of the stream. -/
def toplevel : List (Nat × Nat) → Except ParseError (Nat × List (Nat × Nat))
  | [] => .error .missingSlash
  | (i, c) :: rest =>
      if is_token c then toplevel rest
      else if c = 47 ∧ 0 < i then .ok (i, rest)
      else .error (.invalidToken i c)

/-- Outcome of the sublevel (subtype) loop. -/
inductive SubRes
  | err (e : ParseError)
  | noParams (plus : Option Nat)
  | toParams (plus : Option Nat) (start : Nat) (rest : List (Nat × Nat))
deriving DecidableEq

/-- Sublevel loop: scan the subtype, recording the last `+` strictly after the
subtype start, breaking to parameter parsing at a `;`, and handling a leading
`*` when ranges are allowed. -/
def sublevel (cr : CanRange) (start : Nat) :
    Option Nat → List (Nat × Nat) → SubRes
  | plus, [] => .noParams plus
  | plus, (i, c) :: rest =>
      if c = 43 ∧ start < i then sublevel cr start (some i) rest
      else if c = 59 ∧ start < i then .toParams plus i rest
      else if c = 42 ∧ i = start ∧ cr = CanRange.yes then
        match rest with
        | [] => .noParams plus
        | (j, c2) :: rest2 =>
            if c2 = 59 then .toParams plus j rest2
            else .err (.invalidToken j c2)
      else if is_token c then sublevel cr start plus rest
      else .err (.invalidToken i c)

/-- The `match params` update block at the end of each `'params` iteration,
including the charset/utf-8 shorthand decision and its later materialisation
into explicit spans. -/
def updateParams (s : List Nat) (semicolon : Nat) (params : ParamSource)
    (name value : Indexed) : ParamSource :=
  match params with
  | .utf8 i =>
      let i := i + 2
      let charset : Indexed := (i, charsetBytes.length + i)
      let utf8v : Indexed := (charset.2 + 1, charset.2 + utf8Bytes.length + 1)
      .two semicolon (charset, utf8v) (name, value)
  | .one sc a => .two sc a (name, value)
  | .two sc a b => .three sc a b (name, value)
  | .three sc a b c => .custom sc [a, b, c, (name, value)]
  | .custom sc vec => .custom sc (vec ++ [(name, value)])
  | .none =>
      if semicolon + 2 = name.1 ∧
          eqIgnoreAsciiCase charsetBytes (slice s name.1 name.2) ∧
          eqIgnoreAsciiCase utf8Bytes (slice s value.1 value.2) then
        .utf8 semicolon
      else .one semicolon (name, value)

/-- Parser position inside one parameter: the `'name` loop, the unquoted and
quoted `'value` loops (with the quoted-pair flag), and the `'ws` loop after a
quoted value. -/
inductive PState
  | name (start : Nat)
  | value (nm : Indexed) (start : Nat)
  | valueQ (nm : Indexed) (start : Nat) (qpair : Bool)
  | ws (nm : Indexed) (v : Indexed)

/-- The `'params` loop of `params_from_str`, one stream element per step.  The
`while start < s.len()` check reappears after each completed parameter. -/
def paramsRun (s : List Nat) (semicolon : Nat) :
    ParamSource → PState → List (Nat × Nat) → Except ParseError ParamSource
  | _, .name _, [] => .error .missingEqual
  | params, .name start, (i, c) :: rest =>
      if c = 32 ∧ i = start then paramsRun s semicolon params (.name (i + 1)) rest
      else if is_token c then paramsRun s semicolon params (.name start) rest
      else if c = 61 ∧ start < i then
        paramsRun s semicolon params (.value (start, i) (i + 1)) rest
      else .error (.invalidToken i c)
  | params, .value nm start, [] =>
      -- EOF: value runs to the end of the string; the `'params` condition
      -- `start < s.len()` then fails, so the updated storage is returned.
      .ok (updateParams s semicolon params nm (start, s.length))
  | params, .value nm start, (i, c) :: rest =>
      if c = 34 ∧ i = start then paramsRun s semicolon params (.valueQ nm i false) rest
      else if is_token c then paramsRun s semicolon params (.value nm start) rest
      else if c = 59 ∧ start < i then
        let params := updateParams s semicolon params nm (start, i)
        if i + 1 < s.length then paramsRun s semicolon params (.name (i + 1)) rest
        else .ok params
      else .error (.invalidToken i c)
  | _, .valueQ _ _ _, [] => .error .missingQuote
  | params, .valueQ nm start qpair, (i, c) :: rest =>
      if qpair then
        if is_restricted_quoted_char c then
          paramsRun s semicolon params (.valueQ nm start false) rest
        else .error (.invalidToken i c)
      else
        if c = 34 ∧ start < i then
          paramsRun s semicolon params (.ws nm (start, i + 1)) rest
        else if c = 92 then paramsRun s semicolon params (.valueQ nm start true) rest
        else if is_restricted_quoted_char c then
          paramsRun s semicolon params (.valueQ nm start false) rest
        else .error (.invalidToken i c)
  | params, .ws nm v, [] =>
      -- EOF after a quoted value: `start` becomes `s.len()`, the loop ends.
      .ok (updateParams s semicolon params nm v)
  | params, .ws nm v, (i, c) :: rest =>
      if c = 59 then
        let params := updateParams s semicolon params nm v
        if i + 1 < s.length then paramsRun s semicolon params (.name (i + 1)) rest
        else .ok params
      else if c = 32 then paramsRun s semicolon params (.ws nm v) rest
      else .error (.invalidToken i c)

/-- `params_from_str`: `semicolon` is the `;` position; the `'params` while
loop runs only while `semicolon + 1 < s.len()`. -/
def params_from_str (s : List Nat) (it : List (Nat × Nat)) (start : Nat) :
    Except ParseError ParamSource :=
  let semicolon := start
  let start := start + 1
  if start < s.length then paramsRun s semicolon ParamSource.none (.name start) it
  else .ok ParamSource.none

/-- The top entry point `parse`, with the `*/*` shortcut, the toplevel and
sublevel loops, parameter parsing, and source normalisation. -/
def parse (s : List Nat) (canRange : CanRange)
    (intern : List Nat → Nat → Source) : Except ParseError Mime :=
  if s = strBytes "*/*" then
    match canRange with
    | .yes => .ok ⟨.atom (strBytes "*/*"), 1, Option.none, .none⟩
    | .no => .error .invalidRange
  else
    match toplevel (enumF 0 s) with
    | .error e => .error e
    | .ok (slash, it1) =>
      match sublevel canRange (slash + 1) Option.none it1 with
      | .err e => .error e
      | .noParams plus => .ok ⟨intern s slash, slash, plus, .none⟩
      | .toParams plus start it2 =>
        match params_from_str s it2 start with
        | .error e => .error e
        | .ok params =>
          let source := match params with
            | .none => intern s slash
            | .utf8 _ => Source.dynamic (s.map toLowerByte)
            | .one semi a => Source.dynamic (lower_ascii_with_params s semi [a])
            | .two semi a b => Source.dynamic (lower_ascii_with_params s semi [a, b])
            | .three semi a b c =>
                Source.dynamic (lower_ascii_with_params s semi [a, b, c])
            | .custom semi ps => Source.dynamic (lower_ascii_with_params s semi ps)
          .ok ⟨source, slash, plus, params⟩

/-- The trivial interner: always the dynamic (owned) source.  `parse` takes the
interner as a parameter just as the Rust function does; interning is required
to be observationally identical to this. -/
def internDyn : List Nat → Nat → Source :=
  fun s _ => Source.dynamic s

-- ===== accessors =====

def Mime.semicolonIdx (m : Mime) : Option Nat :=
  match m.params with
  | .utf8 i => some i
  | .one i _ => some i
  | .two i _ _ => some i
  | .three i _ _ _ => some i
  | .custom i _ => some i
  | .none => Option.none

def Mime.type_ (m : Mime) : List Nat :=
  slice m.source.asRef 0 m.slash

def Mime.subtype (m : Mime) : List Nat :=
  let e := m.plus.getD (m.semicolonIdx.getD m.source.asRef.length)
  slice m.source.asRef (m.slash + 1) e

def Mime.suffix (m : Mime) : Option (List Nat) :=
  let e := m.semicolonIdx.getD m.source.asRef.length
  m.plus.map (fun idx => slice m.source.asRef (idx + 1) e)

def Mime.has_params (m : Mime) : Bool :=
  m.semicolonIdx.isSome

def resolvePair (src : List Nat) (p : IndexedPair) : List Nat × List Nat :=
  (slice src p.1.1 p.1.2, slice src p.2.1 p.2.2)

/-- Every pair yielded by the `Params` iterator, in order. -/
def Mime.paramsList (m : Mime) : List (List Nat × List Nat) :=
  match m.params with
  | .utf8 _ => [(charsetBytes, utf8Bytes)]
  | .one _ a => [resolvePair m.source.asRef a]
  | .two _ a b => [resolvePair m.source.asRef a, resolvePair m.source.asRef b]
  | .three _ a b c =>
      [resolvePair m.source.asRef a, resolvePair m.source.asRef b,
       resolvePair m.source.asRef c]
  | .custom _ ps => ps.map (resolvePair m.source.asRef)
  | .none => []

-- ===== equality and ordering =====

inductive FastEqRes
  | equals
  | notEquals
  | undetermined

/-- `Params::fast_eq`, acting on the storage tags the iterators are built
from. -/
def fast_eq : ParamSource → ParamSource → FastEqRes
  | .none, .none => .equals
  | .utf8 _, .utf8 _ => .equals
  | .none, _ => .notEquals
  | _, .none => .notEquals
  | _, _ => .undetermined

/-- `HashMap` collection: later inserts of an existing key replace its value. -/
def insertKV (m : List (List Nat × List Nat)) (k v : List Nat) :
    List (List Nat × List Nat) :=
  if m.any (fun p => p.1 == k) then
    m.map (fun p => if p.1 == k then (k, v) else p)
  else m ++ [(k, v)]

def collectMap (l : List (List Nat × List Nat)) : List (List Nat × List Nat) :=
  l.foldl (fun m p => insertKV m p.1 p.2) []

/-- `HashMap` equality: same size and every entry of one present in the
other. -/
def mapEq (a b : List (List Nat × List Nat)) : Bool :=
  a.length == b.length &&
    a.all (fun p => b.any (fun q => q.1 == p.1 && q.2 == p.2))

/-- `Mime::eq_of_params`.  Note the slow path of the source collects
`self.params()` into both hash maps (`lib.rs` lines 150–151), so both
collections below are built from `m1`. -/
def Mime.eq_of_params (m1 m2 : Mime) : Bool :=
  match fast_eq m1.params m2.params with
  | .equals => true
  | .notEquals => false
  | .undetermined =>
      let my_params := collectMap m1.paramsList
      let other_params := collectMap m1.paramsList
      mapEq my_params other_params

/-- `PartialEq for Mime`. -/
def mimeEq (a b : Mime) : Bool :=
  match a.source, b.source with
  | .atom x, .atom y => x == y
  | _, _ =>
      a.type_ == b.type_ && a.subtype == b.subtype &&
        a.suffix == b.suffix && a.eq_of_params b

/-- `u8::cmp`. -/
def byteCompare (a b : Nat) : Ordering :=
  if a < b then .lt else if b < a then .gt else .eq

/-- Byte-wise lexicographic comparison of two byte lists (`str`/slice `cmp`). -/
def lexCompare : List Nat → List Nat → Ordering
  | [], [] => .eq
  | [], _ :: _ => .lt
  | _ :: _, [] => .gt
  | a :: as_, b :: bs =>
      match byteCompare a b with
      | .eq => lexCompare as_ bs
      | o => o

/-- `Ord for Mime`: comparison of the stored textual forms. -/
def mimeCmp (a b : Mime) : Ordering :=
  lexCompare a.source.asRef b.source.asRef

deriving instance DecidableEq for Except

-- helper projections for concrete statements

def parseB (s : String) (cr : CanRange) : Except ParseError Mime :=
  parse (strBytes s) cr internDyn

def eqOfParsed (s1 s2 : String) : Option Bool :=
  match parseB s1 .yes, parseB s2 .yes with
  | .ok a, .ok b => some (mimeEq a b)
  | _, _ => Option.none

def cmpOfParsed (s1 s2 : String) : Option Ordering :=
  match parseB s1 .yes, parseB s2 .yes with
  | .ok a, .ok b => some (mimeCmp a b)
  | _, _ => Option.none

def paramsOfParsed (s : String) : Option (List (List Nat × List Nat)) :=
  (parseB s .yes).toOption.map Mime.paramsList

def storageOfParsed (s : String) : Option ParamSource :=
  (parseB s .yes).toOption.map Mime.params

def isUtf8Storage : ParamSource → Bool
  | .utf8 _ => true
  | _ => false

example : parseB "text" .yes = .error .missingSlash := by decide
example : parseB "text/plain;charset" .yes = .error .missingEqual := by decide
example : storageOfParsed "text/plain; charset=utf-8" = some (.utf8 10) := by decide
example : storageOfParsed "text/plain;charset=UTF-8" =
    some (.one 10 ((11, 18), (19, 24))) := by decide
example : eqOfParsed "text/plain; charset=utf-8" "text/plain;charset=UTF-8" =
    some true := by decide
example : eqOfParsed "a/b;x=1" "a/b;x=2" = some true := by decide
example : paramsOfParsed "a/b;x=1" = some [([120], [49])] := by decide
example : cmpOfParsed "a/b;x=1;y=2" "a/b;y=2;x=1" = some .lt := by decide

-- ===== general lemmas about the loops =====

theorem token_ne_42 {c : Nat} (h : is_token c = true) : c ≠ 42 := by
  rintro rfl; exact absurd h (by decide)

theorem token_ne_47 {c : Nat} (h : is_token c = true) : c ≠ 47 := by
  rintro rfl; exact absurd h (by decide)

theorem token_ne_59 {c : Nat} (h : is_token c = true) : c ≠ 59 := by
  rintro rfl; exact absurd h (by decide)

theorem enumF_cons (n : Nat) (c : Nat) (t : List Nat) :
    enumF n (c :: t) = (n, c) :: enumF (n + 1) t := rfl

theorem enumF_append : ∀ (a : List Nat) (n : Nat) (b : List Nat),
    enumF n (a ++ b) = enumF n a ++ enumF (n + a.length) b
  | [], n, b => by simp [enumF]
  | c :: t, n, b => by
      have h : n + 1 + t.length = n + (t.length + 1) := by omega
      rw [List.cons_append, enumF_cons, enumF_cons, enumF_append t (n + 1) b, h,
        List.cons_append, List.length_cons]

theorem enumF_length : ∀ (a : List Nat) (n : Nat), (enumF n a).length = a.length
  | [], _ => rfl
  | _ :: t, n => by simp [enumF, enumF_length t (n + 1)]

/-- The toplevel loop over a nonempty-position run of token bytes followed by
the slash. -/
theorem toplevel_tokens : ∀ (t : List Nat) (n : Nat) (r : List Nat),
    t.all is_token = true → 0 < n + t.length →
    toplevel (enumF n (t ++ 47 :: r)) = .ok (n + t.length, enumF (n + t.length + 1) r)
  | [], n, r, _, hn => by
      simp only [List.length_nil, Nat.add_zero] at hn ⊢
      rw [List.nil_append, enumF_cons, toplevel,
        if_neg (by decide : ¬ (is_token 47 = true)),
        if_pos (show (47 : Nat) = 47 ∧ 0 < n from ⟨rfl, hn⟩)]
  | c :: t, n, r, hall, _ => by
      simp only [List.all_cons, Bool.and_eq_true] at hall
      rw [List.cons_append, enumF_cons, toplevel, if_pos hall.1,
        toplevel_tokens t (n + 1) r hall.2 (by omega)]
      simp only [List.length_cons]
      have h1 : n + 1 + t.length = n + (t.length + 1) := by omega
      rw [h1]

/-- Accumulation of the last `+` strictly after `start`, as the sublevel loop
performs it. -/
def plusFold (start : Nat) : Option Nat → List (Nat × Nat) → Option Nat
  | acc, [] => acc
  | acc, (i, c) :: rest =>
      plusFold start (if c = 43 ∧ start < i then some i else acc) rest

theorem plusFold_cons (start : Nat) (acc : Option Nat) (i c : Nat)
    (rest : List (Nat × Nat)) :
    plusFold start acc ((i, c) :: rest)
      = plusFold start (if c = 43 ∧ start < i then some i else acc) rest := rfl

theorem plusFold_append (start : Nat) :
    ∀ (l1 l2 : List (Nat × Nat)) (acc : Option Nat),
      plusFold start acc (l1 ++ l2) = plusFold start (plusFold start acc l1) l2
  | [], _, _ => rfl
  | (i, c) :: t, l2, acc => by
      rw [List.cons_append, plusFold_cons, plusFold_cons,
        plusFold_append start t l2]

theorem sublevel_cons (cr : CanRange) (start : Nat) (plus : Option Nat)
    (i c : Nat) (rest : List (Nat × Nat)) :
    sublevel cr start plus ((i, c) :: rest)
      = (if c = 43 ∧ start < i then sublevel cr start (some i) rest
        else if c = 59 ∧ start < i then .toParams plus i rest
        else if c = 42 ∧ i = start ∧ cr = CanRange.yes then
          match rest with
          | [] => .noParams plus
          | (j, c2) :: rest2 =>
              if c2 = 59 then .toParams plus j rest2
              else .err (.invalidToken j c2)
        else if is_token c then sublevel cr start plus rest
        else .err (.invalidToken i c)) := rfl

/-- The sublevel loop consumes a run of token bytes to end-of-input, tracking
only the `+` marker. -/
theorem sublevel_tokens_eof : ∀ (u : List Nat) (p : Nat) (cr : CanRange)
    (start : Nat) (plus : Option Nat), u.all is_token = true →
    sublevel cr start plus (enumF p u) = .noParams (plusFold start plus (enumF p u))
  | [], _, _, _, _, _ => rfl
  | c :: u, p, cr, start, plus, hall => by
      simp only [List.all_cons, Bool.and_eq_true] at hall
      rw [enumF_cons, sublevel_cons, plusFold_cons]
      by_cases h43 : c = 43 ∧ start < p
      · rw [if_pos h43, if_pos h43, sublevel_tokens_eof u (p + 1) cr start _ hall.2]
      · rw [if_neg h43, if_neg h43,
          if_neg (fun h => token_ne_59 hall.1 h.1),
          if_neg (fun h => token_ne_42 hall.1 h.1),
          if_pos hall.1, sublevel_tokens_eof u (p + 1) cr start _ hall.2]

/-- The sublevel loop over token bytes followed by a `;` strictly after the
subtype start: it breaks to parameter parsing at the semicolon. -/
theorem sublevel_tokens_semi : ∀ (u : List Nat) (p : Nat) (cr : CanRange)
    (start : Nat) (plus : Option Nat) (r : List (Nat × Nat)),
    u.all is_token = true → start < p + u.length →
    sublevel cr start plus (enumF p u ++ (p + u.length, 59) :: r)
      = .toParams (plusFold start plus (enumF p u)) (p + u.length) r
  | [], p, cr, start, plus, r, _, hlt => by
      simp only [List.length_nil, Nat.add_zero] at hlt ⊢
      rw [show enumF p [] = [] from rfl, List.nil_append, sublevel_cons,
        if_neg (by omega : ¬ ((59 : Nat) = 43 ∧ start < p)),
        if_pos (show (59 : Nat) = 59 ∧ start < p from ⟨rfl, hlt⟩)]
      rfl
  | c :: u, p, cr, start, plus, r, hall, hlt => by
      simp only [List.all_cons, Bool.and_eq_true] at hall
      simp only [List.length_cons] at hlt ⊢
      have harith : p + (u.length + 1) = p + 1 + u.length := by omega
      rw [harith, enumF_cons, List.cons_append, sublevel_cons, plusFold_cons]
      by_cases h43 : c = 43 ∧ start < p
      · rw [if_pos h43, if_pos h43,
          sublevel_tokens_semi u (p + 1) cr start _ r hall.2 (by omega)]
      · rw [if_neg h43, if_neg h43,
          if_neg (fun h => token_ne_59 hall.1 h.1),
          if_neg (fun h => token_ne_42 hall.1 h.1),
          if_pos hall.1,
          sublevel_tokens_semi u (p + 1) cr start _ r hall.2 (by omega)]

/-- The sublevel loop over token bytes followed by a `*` strictly after the
subtype start: the `*` is an invalid token there. -/
theorem sublevel_tokens_star : ∀ (u : List Nat) (p : Nat) (cr : CanRange)
    (start : Nat) (plus : Option Nat) (r : List (Nat × Nat)),
    u.all is_token = true → start < p + u.length →
    sublevel cr start plus (enumF p u ++ (p + u.length, 42) :: r)
      = .err (.invalidToken (p + u.length) 42)
  | [], p, cr, start, plus, r, _, hlt => by
      simp only [List.length_nil, Nat.add_zero] at hlt ⊢
      rw [show enumF p [] = [] from rfl, List.nil_append, sublevel_cons,
        if_neg (by omega : ¬ ((42 : Nat) = 43 ∧ start < p)),
        if_neg (by omega : ¬ ((42 : Nat) = 59 ∧ start < p)),
        if_neg (by omega : ¬ ((42 : Nat) = 42 ∧ p = start ∧ cr = CanRange.yes)),
        if_neg (by decide : ¬ (is_token 42 = true))]
  | c :: u, p, cr, start, plus, r, hall, hlt => by
      simp only [List.all_cons, Bool.and_eq_true] at hall
      simp only [List.length_cons] at hlt ⊢
      have harith : p + (u.length + 1) = p + 1 + u.length := by omega
      rw [harith, enumF_cons, List.cons_append, sublevel_cons]
      by_cases h43 : c = 43 ∧ start < p
      · rw [if_pos h43,
          sublevel_tokens_star u (p + 1) cr start _ r hall.2 (by omega)]
      · rw [if_neg h43,
          if_neg (fun h => token_ne_59 hall.1 h.1),
          if_neg (fun h => token_ne_42 hall.1 h.1),
          if_pos hall.1,
          sublevel_tokens_star u (p + 1) cr start _ r hall.2 (by omega)]

/-- A string starting with a nonempty token run followed by `/` is never the
literal `*/*`. -/
theorem tokens_ne_star (t : List Nat) (r : List Nat) (hne : t ≠ [])
    (hall : t.all is_token = true) : t ++ 47 :: r ≠ strBytes "*/*" := by
  cases t with
  | nil => exact absurd rfl hne
  | cons c t =>
      simp only [List.all_cons, Bool.and_eq_true] at hall
      intro h
      have : c = 42 := by
        have := congrArg (fun l => l.getD 0 0) h
        simpa [strBytes] using this
      exact token_ne_42 hall.1 this

/-- What the `+`-marker accumulation computes: the position of the last `+`
strictly after `start`, if any. -/
theorem plusFold_char (start : Nat) (u : List Nat) (p j : Nat) :
    plusFold start Option.none (enumF p u) = some j ↔
      (start < j ∧ p ≤ j ∧ j < p + u.length ∧ u.getD (j - p) 0 = 43 ∧
        ∀ k, j < k → k < p + u.length → ¬(u.getD (k - p) 0 = 43 ∧ start < k)) := by
  induction u using List.reverseRecOn generalizing j with
  | nil =>
      simp only [enumF, plusFold, List.length_nil, Nat.add_zero]
      constructor
      · intro h; exact absurd h (by simp)
      · intro h; omega
  | append_singleton u c ih =>
      rw [enumF_append, plusFold_append]
      simp only [enumF, List.length_append, List.length_singleton]
      rw [plusFold_cons]
      by_cases hc : c = 43 ∧ start < p + u.length
      · rw [if_pos hc]
        simp only [plusFold]
        constructor
        · rintro h
          have hj : j = p + u.length := by
            have := Option.some.inj h
            omega
          subst hj
          refine ⟨hc.2, by omega, by omega, ?_, ?_⟩
          · rw [List.getD_append_right u [c] 0 _ (by omega)]
            have : p + u.length - p - u.length = 0 := by omega
            rw [this]
            exact hc.1
          · intro k hk1 hk2 _
            omega
        · rintro ⟨h1, h2, h3, h4, h5⟩
          by_cases hje : j = p + u.length
          · rw [hje]
          · exfalso
            refine h5 (p + u.length) (by omega) (by omega) ⟨?_, hc.2⟩
            rw [List.getD_append_right u [c] 0 _ (by omega)]
            have : p + u.length - p - u.length = 0 := by omega
            rw [this]
            exact hc.1
      · rw [if_neg hc]
        simp only [plusFold]
        rw [ih j]
        constructor
        · rintro ⟨h1, h2, h3, h4, h5⟩
          refine ⟨h1, h2, by omega, ?_, ?_⟩
          · rw [List.getD_append u [c] 0 _ (by omega)]
            exact h4
          · intro k hk1 hk2 hk3
            by_cases hke : k = p + u.length
            · subst hke
              rw [List.getD_append_right u [c] 0 _ (by omega)] at hk3
              have hz : p + u.length - p - u.length = 0 := by omega
              rw [hz] at hk3
              exact hc ⟨hk3.1, hk3.2⟩
            · rw [List.getD_append u [c] 0 _ (by omega)] at hk3
              exact h5 k hk1 (by omega) hk3
        · rintro ⟨h1, h2, h3, h4, h5⟩
          have hjlt : j < p + u.length := by
            by_contra hge
            have hje : j = p + u.length := by omega
            subst hje
            rw [List.getD_append_right u [c] 0 _ (by omega)] at h4
            have hz : p + u.length - p - u.length = 0 := by omega
            rw [hz] at h4
            exact hc ⟨h4, h1⟩
          refine ⟨h1, h2, hjlt, ?_, ?_⟩
          · rw [List.getD_append u [c] 0 _ (by omega)] at h4
            exact h4
          · intro k hk1 hk2 hk3
            refine h5 k hk1 (by omega) ⟨?_, hk3.2⟩
            rw [List.getD_append u [c] 0 _ (by omega)]
            exact hk3.1

-- ===== ordering lemmas =====

theorem byteCompare_lt_iff (a b : Nat) : byteCompare a b = .lt ↔ a < b := by
  unfold byteCompare
  split_ifs with h1 h2 <;> simp_all <;> omega

theorem byteCompare_gt_iff (a b : Nat) : byteCompare a b = .gt ↔ b < a := by
  unfold byteCompare
  split_ifs with h1 h2 <;> simp_all <;> omega

theorem byteCompare_eq_iff (a b : Nat) : byteCompare a b = .eq ↔ a = b := by
  unfold byteCompare
  split_ifs with h1 h2 <;> simp_all <;> omega

theorem byteCompare_swap (a b : Nat) : byteCompare b a = (byteCompare a b).swap := by
  unfold byteCompare
  split_ifs with h1 h2 <;> first
    | rfl
    | (exfalso; omega)
    | (have : a = b := by omega
       subst this
       rfl)

theorem lexCompare_eq_iff : ∀ (x y : List Nat), lexCompare x y = .eq ↔ x = y
  | [], [] => by simp [lexCompare]
  | [], _ :: _ => by simp [lexCompare]
  | _ :: _, [] => by simp [lexCompare]
  | a :: as_, b :: bs => by
      simp only [lexCompare]
      cases hab : byteCompare a b with
      | eq =>
          have hab' := (byteCompare_eq_iff a b).mp hab
          subst hab'
          simp [lexCompare_eq_iff as_ bs]
      | lt =>
          have hlt := (byteCompare_lt_iff a b).mp hab
          constructor
          · intro h; exact absurd h (by simp)
          · intro h
            injection h with h1 _
            exact absurd h1 (by omega)
      | gt =>
          have hgt := (byteCompare_gt_iff a b).mp hab
          constructor
          · intro h; exact absurd h (by simp)
          · intro h
            injection h with h1 _
            exact absurd h1 (by omega)

theorem lexCompare_swap : ∀ (x y : List Nat), lexCompare y x = (lexCompare x y).swap
  | [], [] => rfl
  | [], _ :: _ => rfl
  | _ :: _, [] => rfl
  | a :: as_, b :: bs => by
      simp only [lexCompare]
      rw [byteCompare_swap a b]
      cases byteCompare a b with
      | eq => simpa [Ordering.swap] using lexCompare_swap as_ bs
      | lt => rfl
      | gt => rfl

theorem lexCompare_trans_lt : ∀ (x y z : List Nat),
    lexCompare x y = .lt → lexCompare y z = .lt → lexCompare x z = .lt
  | [], [], _, h1, _ => by exact absurd h1 (by simp [lexCompare])
  | [], _ :: _, [], _, h2 => by exact absurd h2 (by simp [lexCompare])
  | [], _ :: _, _ :: _, _, _ => rfl
  | _ :: _, [], _, h1, _ => by exact absurd h1 (by simp [lexCompare])
  | _ :: _, _ :: _, [], _, h2 => by exact absurd h2 (by simp [lexCompare])
  | a :: as_, b :: bs, c :: cs, h1, h2 => by
      simp only [lexCompare] at h1 h2 ⊢
      cases hab : byteCompare a b with
      | gt => rw [hab] at h1; exact absurd h1 (by simp)
      | lt =>
          have hab' := (byteCompare_lt_iff a b).mp hab
          cases hbc : byteCompare b c with
          | gt => rw [hbc] at h2; exact absurd h2 (by simp)
          | lt =>
              have hbc' := (byteCompare_lt_iff b c).mp hbc
              rw [(byteCompare_lt_iff a c).mpr (by omega)]
          | eq =>
              have hbc' := (byteCompare_eq_iff b c).mp hbc
              rw [(byteCompare_lt_iff a c).mpr (by omega)]
      | eq =>
          have hab' := (byteCompare_eq_iff a b).mp hab
          rw [hab] at h1
          have h1' : lexCompare as_ bs = .lt := h1
          cases hbc : byteCompare b c with
          | gt => rw [hbc] at h2; exact absurd h2 (by simp)
          | lt =>
              have hbc' := (byteCompare_lt_iff b c).mp hbc
              rw [(byteCompare_lt_iff a c).mpr (by omega)]
          | eq =>
              have hbc' := (byteCompare_eq_iff b c).mp hbc
              rw [hbc] at h2
              have h2' : lexCompare bs cs = .lt := h2
              rw [(byteCompare_eq_iff a c).mpr (by omega)]
              exact lexCompare_trans_lt as_ bs cs h1' h2'

-- ===== additional helper projections =====

def plusOfParsed (s : String) : Option (Option Nat) :=
  (parseB s .yes).toOption.map Mime.plus

def suffixOfParsed (s : String) : Option (Option (List Nat)) :=
  (parseB s .yes).toOption.map Mime.suffix

/-- The token alphabet as the specification claims it: every RFC-7231 `tchar`,
explicitly including the asterisk. -/
def tchar_claimed (b : Nat) : Bool :=
  (65 ≤ b && b ≤ 90) || (97 ≤ b && b ≤ 122) || (48 ≤ b && b ≤ 57) ||
    (b == 33 || b == 35 || b == 36 || b == 37 || b == 38 || b == 39 ||
     b == 42 || b == 43 || b == 45 || b == 46 || b == 94 || b == 95 ||
     b == 96 || b == 124 || b == 126)

/-- The alphabet `TOKEN_MAP` actually encodes: the same set without the
asterisk. -/
def tchar_amended (b : Nat) : Bool :=
  (65 ≤ b && b ≤ 90) || (97 ≤ b && b ≤ 122) || (48 ≤ b && b ≤ 57) ||
    (b == 33 || b == 35 || b == 36 || b == 37 || b == 38 || b == 39 ||
     b == 43 || b == 45 || b == 46 || b == 94 || b == 95 ||
     b == 96 || b == 124 || b == 126)

-- ===== claim theorems =====

/-- C1 (code bug): the claim says parses of `a/b;x=1` and `a/b;x=2` are
unequal, but `eq_of_params` collects `self.params()` into *both* hash maps, so
the equality check returns `true` even though the two values expose different
parameter pairs `("x", "1")` and `("x", "2")`. -/
theorem C1_param_eq_bug :
    eqOfParsed "a/b;x=1" "a/b;x=2" = some true ∧
    paramsOfParsed "a/b;x=1" = some [([120], [49])] ∧
    paramsOfParsed "a/b;x=2" = some [([120], [50])] :=
  ⟨by decide, by decide, by decide⟩

/-- C2 counterexample: the claim's alphabet contains the asterisk (byte 42),
but `is_token 42` is `false` in `TOKEN_MAP`, so the claimed equivalence fails
at byte 42. -/
theorem C2_counterexample : ¬ (is_token 42 = tchar_claimed 42) := by decide

set_option maxRecDepth 10000 in
/-- C2 (amended): for every byte, `is_token` returns true iff the byte is an
ASCII letter, digit, or one of `!#$%&'+-.^_`|~` — the RFC-7231 `tchar` set
*without* the asterisk. -/
theorem C2_token_map_amended : ∀ b : Fin 256, is_token b.val = tchar_amended b.val := by
  decide

/-- C3 counterexample: `text/plain;charset=utf-8` (no space after the `;`) does
*not* produce the Utf8 shorthand storage, contrary to the claim. -/
theorem C3_counterexample :
    (parseB "text/plain;charset=utf-8" .yes).toOption.map
        (fun m => isUtf8Storage m.params) = some false := by decide

/-- C3 (amended): the first parameter is stored as the Utf8 shorthand exactly
when its name span starts two bytes after the semicolon (i.e. a single space
separates `;` from the name), the name case-insensitively equals `charset`,
and the stored value bytes case-insensitively equal `utf-8` (a quoted value
stores the quotes, so only an unquoted `utf-8` qualifies); with no space, with
quotes, or once a second parameter arrives, explicit spans are stored. -/
theorem C3_utf8_shorthand_amended :
    (∀ (s : List Nat) (semi : Nat) (nm v : Indexed),
      updateParams s semi .none nm v = .utf8 semi ↔
        (semi + 2 = nm.1 ∧
          eqIgnoreAsciiCase charsetBytes (slice s nm.1 nm.2) = true ∧
          eqIgnoreAsciiCase utf8Bytes (slice s v.1 v.2) = true)) ∧
    storageOfParsed "text/plain; charset=UTF-8" = some (.utf8 10) ∧
    storageOfParsed "text/plain;charset=utf-8"
      = some (.one 10 ((11, 18), (19, 24))) ∧
    storageOfParsed "text/plain; charset=\"utf-8\""
      = some (.one 10 ((12, 19), (20, 27))) ∧
    storageOfParsed "text/plain; charset=utf-8; a=b"
      = some (.two 10 ((12, 19), (20, 25)) ((27, 28), (29, 30))) := by
  refine ⟨?_, by decide, by decide, by decide, by decide⟩
  intro s semi nm v
  simp only [updateParams]
  split_ifs with h
  · simp [h]
  · constructor
    · intro hcontra; exact absurd hcontra (by simp)
    · intro hcond; exact absurd hcond h

/-- C4: `text/plain; charset=utf-8` and `text/plain;charset=UTF-8` both parse
successfully, the results are equal, and each exposes exactly the single
parameter pair `("charset", "utf-8")` through the iterator. -/
theorem C4_charset_pair :
    eqOfParsed "text/plain; charset=utf-8" "text/plain;charset=UTF-8"
      = some true ∧
    paramsOfParsed "text/plain; charset=utf-8" = some [(charsetBytes, utf8Bytes)] ∧
    paramsOfParsed "text/plain;charset=UTF-8" = some [(charsetBytes, utf8Bytes)] :=
  ⟨by decide, by decide, by decide⟩

/-- C5: the input `*/*` short-circuits before the state machine: for every
interner it succeeds with the canonical wildcard atom and no parameters when
ranges are allowed, and fails with `InvalidRange` when they are not. -/
theorem C5_star_range :
    (∀ intern, parse (strBytes "*/*") .yes intern
        = .ok ⟨.atom (strBytes "*/*"), 1, Option.none, .none⟩) ∧
    (∀ intern, parse (strBytes "*/*") .no intern = .error .invalidRange) :=
  ⟨fun _ => rfl, fun _ => rfl⟩

/-- C7: each malformed input maps to its specific terminal error: `text` to
MissingSlash, `text/plain;charset` to MissingEqual, an unterminated quote to
MissingQuote, and `text/plain; a=b c` to InvalidToken at position 15 carrying
the space byte 32; on failure only an error value is produced. -/
theorem C7_error_mapping :
    parseB "text" .yes = .error .missingSlash ∧
    parseB "text/plain;charset" .yes = .error .missingEqual ∧
    parseB "text/plain; a=\"unterminated" .yes = .error .missingQuote ∧
    parseB "text/plain; a=b c" .yes = .error (.invalidToken 15 32) :=
  ⟨by decide, by decide, by decide, by decide⟩

/-- C9: the ordering of two parsed values is exactly the byte-wise
lexicographic comparison of their stored textual forms; that comparison is a
total order (reflects equality of the texts, is transitive, and is
antisymmetric via `swap`); and two parses with set-equal but differently
ordered parameters compare equal under `==` yet non-Equal under the
ordering. -/
theorem C9_ordering :
    (∀ a b : Mime, mimeCmp a b = lexCompare a.source.asRef b.source.asRef) ∧
    (∀ x y : List Nat, lexCompare x y = .eq ↔ x = y) ∧
    (∀ x y z : List Nat, lexCompare x y = .lt → lexCompare y z = .lt →
      lexCompare x z = .lt) ∧
    (∀ x y : List Nat, lexCompare y x = (lexCompare x y).swap) ∧
    (∀ x y : List Nat, lexCompare x y = .lt ∨ lexCompare x y = .eq ∨
      lexCompare x y = .gt) ∧
    eqOfParsed "a/b;x=1;y=2" "a/b;y=2;x=1" = some true ∧
    cmpOfParsed "a/b;x=1;y=2" "a/b;y=2;x=1" = some .lt := by
  refine ⟨fun a b => rfl, lexCompare_eq_iff, lexCompare_trans_lt, lexCompare_swap,
    ?_, by decide, by decide⟩
  intro x y
  cases lexCompare x y with
  | lt => exact Or.inl rfl
  | eq => exact Or.inr (Or.inl rfl)
  | gt => exact Or.inr (Or.inr rfl)

/-- Witness for C9: its transitivity component applied at concrete lists. -/
theorem C9_ordering_witness :
    lexCompare (strBytes "a") (strBytes "c") = .lt :=
  C9_ordering.2.2.1 (strBytes "a") (strBytes "b") (strBytes "c")
    (by decide) (by decide)

-- ===== parse unfolding lemmas =====

theorem params_from_str_eof (s : List Nat) (it : List (Nat × Nat)) (start : Nat)
    (h : ¬ (start + 1 < s.length)) : params_from_str s it start = .ok .none := by
  simp only [params_from_str]
  rw [if_neg h]

theorem parse_noParams (s : List Nat) (cr : CanRange)
    (intern : List Nat → Nat → Source) (slash : Nat) (it1 : List (Nat × Nat))
    (plus : Option Nat) (hne : s ≠ strBytes "*/*")
    (htop : toplevel (enumF 0 s) = .ok (slash, it1))
    (hsub : sublevel cr (slash + 1) Option.none it1 = .noParams plus) :
    parse s cr intern = .ok ⟨intern s slash, slash, plus, .none⟩ := by
  unfold parse
  rw [if_neg hne]
  simp only [htop, hsub]

theorem parse_toParams_none (s : List Nat) (cr : CanRange)
    (intern : List Nat → Nat → Source) (slash : Nat) (it1 it2 : List (Nat × Nat))
    (plus : Option Nat) (pstart : Nat) (hne : s ≠ strBytes "*/*")
    (htop : toplevel (enumF 0 s) = .ok (slash, it1))
    (hsub : sublevel cr (slash + 1) Option.none it1 = .toParams plus pstart it2)
    (hpar : params_from_str s it2 pstart = .ok .none) :
    parse s cr intern = .ok ⟨intern s slash, slash, plus, .none⟩ := by
  unfold parse
  rw [if_neg hne]
  simp only [htop, hsub, hpar]

theorem parse_top_err (s : List Nat) (cr : CanRange)
    (intern : List Nat → Nat → Source) (e : ParseError)
    (hne : s ≠ strBytes "*/*")
    (htop : toplevel (enumF 0 s) = .error e) :
    parse s cr intern = .error e := by
  unfold parse
  rw [if_neg hne]
  simp only [htop]

theorem parse_sub_err (s : List Nat) (cr : CanRange)
    (intern : List Nat → Nat → Source) (slash : Nat) (it1 : List (Nat × Nat))
    (e : ParseError) (hne : s ≠ strBytes "*/*")
    (htop : toplevel (enumF 0 s) = .ok (slash, it1))
    (hsub : sublevel cr (slash + 1) Option.none it1 = .err e) :
    parse s cr intern = .error e := by
  unfold parse
  rw [if_neg hne]
  simp only [htop, hsub]

/-- C10: for every valid (nonempty, all-token) type and subtype, the input
`type/subtype;` with a single trailing semicolon parses successfully; the
parameter storage is the no-parameter variant, `has_params` is false, the
parameter iterator yields nothing, and the stored text is the full input
(still ending in the `;`). -/
theorem C10_trailing_semicolon (cr : CanRange) (t u : List Nat)
    (ht : t ≠ []) (htall : t.all is_token = true)
    (hu : u ≠ []) (huall : u.all is_token = true) :
    ∃ m, parse (t ++ 47 :: (u ++ [59])) cr internDyn = .ok m ∧
      m.params = .none ∧ m.has_params = false ∧ m.paramsList = [] ∧
      m.source.asRef = t ++ 47 :: (u ++ [59]) := by
  have ht0 : 0 < t.length := List.length_pos.mpr ht
  have hu0 : 0 < u.length := List.length_pos.mpr hu
  have hne : t ++ 47 :: (u ++ [59]) ≠ strBytes "*/*" :=
    tokens_ne_star t (u ++ [59]) ht htall
  have htop := toplevel_tokens t 0 (u ++ [59]) htall (by omega)
  simp only [Nat.zero_add] at htop
  have hsub : sublevel cr (t.length + 1) Option.none
      (enumF (t.length + 1) (u ++ [59]))
      = .toParams (plusFold (t.length + 1) Option.none (enumF (t.length + 1) u))
          (t.length + 1 + u.length) [] := by
    rw [enumF_append,
      show enumF (t.length + 1 + u.length) [59]
        = (t.length + 1 + u.length, 59) :: [] from rfl]
    exact sublevel_tokens_semi u (t.length + 1) cr (t.length + 1) Option.none []
      huall (by omega)
  have hpar : params_from_str (t ++ 47 :: (u ++ [59])) [] (t.length + 1 + u.length)
      = .ok .none := by
    apply params_from_str_eof
    simp only [List.length_append, List.length_cons, List.length_nil]
    omega
  refine ⟨⟨.dynamic (t ++ 47 :: (u ++ [59])), t.length,
    plusFold (t.length + 1) Option.none (enumF (t.length + 1) u), .none⟩,
    ?_, rfl, rfl, rfl, rfl⟩
  exact parse_toParams_none _ cr internDyn t.length _ [] _ _ hne htop hsub hpar

/-- Witness for C10 at the concrete input `text/plain;`. -/
theorem C10_trailing_semicolon_witness :
    ∃ m, parse ([116, 101, 120, 116] ++ 47 :: ([112, 108, 97, 105, 110] ++ [59]))
        CanRange.yes internDyn = .ok m ∧
      m.params = .none ∧ m.has_params = false ∧ m.paramsList = [] ∧
      m.source.asRef
        = [116, 101, 120, 116] ++ 47 :: ([112, 108, 97, 105, 110] ++ [59]) :=
  C10_trailing_semicolon CanRange.yes [116, 101, 120, 116] [112, 108, 97, 105, 110]
    (by decide) (by decide) (by decide) (by decide)

/-- C6: with wildcards permitted, a `*` is accepted as a subtype only as the
entire subtype (at the subtype start) immediately followed by end-of-input or
by `;`; a
`*` after any token run inside the subtype is rejected with InvalidToken at
its position and byte, as is any non-`;` byte following a subtype `*`; in
particular `te*t/plain` and `text/pla*n` are rejected with the invalid-token
errors at positions 2 and 8 carrying byte 42. -/
theorem C6_subtype_star :
    (∀ t : List Nat, t ≠ [] → t.all is_token = true →
      ∃ m, parse (t ++ [47, 42]) .yes internDyn = .ok m ∧ m.subtype = [42] ∧
        m.params = .none) ∧
    (∀ t : List Nat, t ≠ [] → t.all is_token = true →
      ∃ m, parse (t ++ [47, 42, 59]) .yes internDyn = .ok m ∧
        m.params = .none) ∧
    (∀ (t u r : List Nat), t ≠ [] → t.all is_token = true → u ≠ [] →
      u.all is_token = true →
      parse (t ++ 47 :: (u ++ 42 :: r)) .yes internDyn
        = .error (.invalidToken (t.length + 1 + u.length) 42)) ∧
    (∀ (t r : List Nat) (c : Nat), t ≠ [] → t.all is_token = true → c ≠ 59 →
      parse (t ++ 47 :: (42 :: c :: r)) .yes internDyn
        = .error (.invalidToken (t.length + 2) c)) ∧
    parseB "te*t/plain" .yes = .error (.invalidToken 2 42) ∧
    parseB "text/pla*n" .yes = .error (.invalidToken 8 42) := by
  refine ⟨?_, ?_, ?_, ?_, by decide, by decide⟩
  · intro t ht htall
    have ht0 : 0 < t.length := List.length_pos.mpr ht
    have hne := tokens_ne_star t [42] ht htall
    have htop := toplevel_tokens t 0 [42] htall (by omega)
    simp only [Nat.zero_add] at htop
    have hsub : sublevel .yes (t.length + 1) Option.none (enumF (t.length + 1) [42])
        = .noParams Option.none := by
      rw [show enumF (t.length + 1) [42] = [(t.length + 1, 42)] from rfl,
        sublevel_cons, if_neg (by omega), if_neg (by omega),
        if_pos ⟨rfl, rfl, rfl⟩]
    refine ⟨⟨.dynamic (t ++ [47, 42]), t.length, Option.none, .none⟩,
      parse_noParams _ _ internDyn t.length _ _ hne htop hsub, ?_, rfl⟩
    simp only [Mime.subtype, Mime.semicolonIdx, Source.asRef, Option.getD_none,
      slice]
    rw [List.take_length, List.append_cons t 47 [42],
      show t.length + 1 = (t ++ [47]).length from by simp]
    exact List.drop_left _ _
  · intro t ht htall
    have ht0 : 0 < t.length := List.length_pos.mpr ht
    have hne := tokens_ne_star t [42, 59] ht htall
    have htop := toplevel_tokens t 0 [42, 59] htall (by omega)
    simp only [Nat.zero_add] at htop
    have hsub : sublevel .yes (t.length + 1) Option.none
        (enumF (t.length + 1) [42, 59])
        = .toParams Option.none (t.length + 2) [] := by
      rw [show enumF (t.length + 1) [42, 59]
          = (t.length + 1, 42) :: (t.length + 2, 59) :: [] from rfl,
        sublevel_cons, if_neg (by omega), if_neg (by omega),
        if_pos ⟨rfl, rfl, rfl⟩]
      simp
    have hpar : params_from_str (t ++ [47, 42, 59]) [] (t.length + 2)
        = .ok .none := by
      apply params_from_str_eof
      simp only [List.length_append, List.length_cons, List.length_nil]
      omega
    exact ⟨⟨.dynamic (t ++ [47, 42, 59]), t.length, Option.none, .none⟩,
      parse_toParams_none _ _ internDyn t.length _ [] _ _ hne htop hsub hpar, rfl⟩
  · intro t u r ht htall hu huall
    have ht0 : 0 < t.length := List.length_pos.mpr ht
    have hu0 : 0 < u.length := List.length_pos.mpr hu
    have hne := tokens_ne_star t (u ++ 42 :: r) ht htall
    have htop := toplevel_tokens t 0 (u ++ 42 :: r) htall (by omega)
    simp only [Nat.zero_add] at htop
    have hsub : sublevel .yes (t.length + 1) Option.none
        (enumF (t.length + 1) (u ++ 42 :: r))
        = .err (.invalidToken (t.length + 1 + u.length) 42) := by
      rw [enumF_append,
        show enumF (t.length + 1 + u.length) (42 :: r)
          = (t.length + 1 + u.length, 42) :: enumF (t.length + 1 + u.length + 1) r
          from rfl]
      exact sublevel_tokens_star u (t.length + 1) .yes (t.length + 1) Option.none
        _ huall (by omega)
    exact parse_sub_err _ _ internDyn t.length _ _ hne htop hsub
  · intro t r c ht htall hc59
    have ht0 : 0 < t.length := List.length_pos.mpr ht
    have hne := tokens_ne_star t (42 :: c :: r) ht htall
    have htop := toplevel_tokens t 0 (42 :: c :: r) htall (by omega)
    simp only [Nat.zero_add] at htop
    have hsub : sublevel .yes (t.length + 1) Option.none
        (enumF (t.length + 1) (42 :: c :: r))
        = .err (.invalidToken (t.length + 2) c) := by
      rw [show enumF (t.length + 1) (42 :: c :: r)
          = (t.length + 1, 42) :: (t.length + 2, c) :: enumF (t.length + 3) r
          from rfl,
        sublevel_cons, if_neg (by omega), if_neg (by omega),
        if_pos ⟨rfl, rfl, rfl⟩]
      simp [hc59]
    exact parse_sub_err _ _ internDyn t.length _ _ hne htop hsub

/-- Witness for C6: its second component at `text/pla*n` split as type `text`,
subtype tokens `pla`, star, rest `n`. -/
theorem C6_subtype_star_witness :
    parse ([116, 101, 120, 116] ++ 47 :: ([112, 108, 97] ++ 42 :: [110]))
        CanRange.yes internDyn = .error (.invalidToken 8 42) :=
  C6_subtype_star.2.2.1 [116, 101, 120, 116] [112, 108, 97] [110]
    (by decide) (by decide) (by decide) (by decide)

/-- C8: for any parse of `type/subtype` (token runs, no parameter section),
the suffix marker is `some j` exactly when `j` is the position of the last `+`
strictly after the subtype start (a `+` at the subtype start records nothing),
and `suffix` is the text between that last `+` and the end; with a parameter
section, `a/b+c+d;x=y` records the last `+` (position 5) and suffix `d`. -/
theorem C8_suffix_marker :
    (∀ (t u : List Nat), t ≠ [] → t.all is_token = true →
      u.all is_token = true →
      ∃ m, parse (t ++ 47 :: u) .yes internDyn = .ok m ∧
        (∀ j, m.plus = some j ↔
          (t.length + 1 < j ∧ j < (t ++ 47 :: u).length ∧
            (t ++ 47 :: u).getD j 0 = 43 ∧
            ∀ k, j < k → k < (t ++ 47 :: u).length →
              (t ++ 47 :: u).getD k 0 ≠ 43)) ∧
        m.suffix = m.plus.map
          (fun j => slice (t ++ 47 :: u) (j + 1) (t ++ 47 :: u).length)) ∧
    plusOfParsed "a/b+c+d;x=y" = some (some 5) ∧
    suffixOfParsed "a/b+c+d;x=y" = some (some [100]) := by
  refine ⟨?_, by decide, by decide⟩
  intro t u ht htall huall
  have ht0 : 0 < t.length := List.length_pos.mpr ht
  have hne := tokens_ne_star t u ht htall
  have htop := toplevel_tokens t 0 u htall (by omega)
  simp only [Nat.zero_add] at htop
  have hsub := sublevel_tokens_eof u (t.length + 1) .yes (t.length + 1)
    Option.none huall
  refine ⟨⟨.dynamic (t ++ 47 :: u), t.length,
      plusFold (t.length + 1) Option.none (enumF (t.length + 1) u), .none⟩,
    parse_noParams _ _ internDyn t.length _ _ hne htop hsub, ?_, rfl⟩
  intro j
  show plusFold (t.length + 1) Option.none (enumF (t.length + 1) u) = some j ↔ _
  rw [plusFold_char (t.length + 1) u (t.length + 1) j]
  have hlen : (t ++ 47 :: u).length = t.length + 1 + u.length := by
    simp only [List.length_append, List.length_cons]
    omega
  have hgetD : ∀ n, t.length + 1 ≤ n →
      (t ++ 47 :: u).getD n 0 = u.getD (n - (t.length + 1)) 0 := by
    intro n hn
    rw [List.append_cons t 47 u,
      List.getD_append_right (t ++ [47]) u 0 n (by simp; omega)]
    congr 1
    simp
  constructor
  · rintro ⟨h1, h2, h3, h4, h5⟩
    refine ⟨h1, by omega, ?_, ?_⟩
    · rw [hgetD j (by omega)]
      exact h4
    · intro k hk1 hk2
      rw [hgetD k (by omega)]
      intro hk43
      exact h5 k hk1 (by omega) ⟨hk43, by omega⟩
  · rintro ⟨h1, h2, h3, h4⟩
    refine ⟨h1, by omega, by omega, ?_, ?_⟩
    · rw [← hgetD j (by omega)]
      exact h3
    · intro k hk1 hk2 hk3
      have hne43 := h4 k hk1 (by omega)
      rw [hgetD k (by omega)] at hne43
      exact hne43 hk3.1

/-- Witness for C8 at the concrete input `a/b+c`: the marker is the `+` at
position 3. -/
theorem C8_suffix_marker_witness :
    ∃ m, parse ([97] ++ 47 :: [98, 43, 99]) CanRange.yes internDyn = .ok m ∧
      m.plus = some 3 := by
  obtain ⟨m, hm, hiff, _⟩ :=
    C8_suffix_marker.1 [97] [98, 43, 99] (by decide) (by decide) (by decide)
  refine ⟨m, hm, (hiff 3).mpr ⟨by decide, by decide, by decide, ?_⟩⟩
  intro k hk1 hk2
  have hk : k = 4 := by
    simp only [List.length_append, List.length_cons, List.length_nil] at hk2
    omega
  subst hk
  decide

/-- Witness for C2 (amended) at byte 43 (`+`). -/
theorem C2_token_map_amended_witness : is_token 43 = tchar_amended 43 :=
  C2_token_map_amended ⟨43, by decide⟩

/-- Witness for C3 (amended): the shorthand condition holding at the spans of
`text/plain; charset=utf-8`. -/
theorem C3_utf8_shorthand_amended_witness :
    updateParams (strBytes "text/plain; charset=utf-8") 10 .none (12, 19) (20, 25)
      = .utf8 10 :=
  (C3_utf8_shorthand_amended.1 (strBytes "text/plain; charset=utf-8") 10
    (12, 19) (20, 25)).mpr ⟨by decide, by decide, by decide⟩

/-- Witness for C5 at the dynamic interner. -/
theorem C5_star_range_witness :
    parse (strBytes "*/*") .yes internDyn
      = .ok ⟨.atom (strBytes "*/*"), 1, Option.none, .none⟩ :=
  C5_star_range.1 internDyn
